import Mathlib

/-!
Verification of the Outside-Time core against its implementation.

The definitions below are shallow embeddings of the TypeScript sources:
  * `packages/core/src/session.ts`  — session reconstruction
  * `packages/core/src/storage.ts`  — the per-identity event cache
  * `packages/core/src/api.ts`      — server wire types
  * `web-app/src/lib/crypto.ts`     — sealed boxes and key derivation
  * `cloudflare-workers/src/handlers/append.ts` — the append handler
  * the sync engine (`SyncEngine.pull`)

JavaScript numbers are modelled as `ℚ` where fractional values can occur
(timestamps and minute durations), byte arrays as `List Nat`, and the
external `tweetnacl` primitives as an abstract structure `NaclPrim`.
-/

-- ───────────────────────── JS collection helpers ─────────────────────────

/-- JS `Map.prototype.set`: overwrite in place if the key is present,
otherwise append at the end (insertion order is preserved). -/
def mapSet {α : Type} (m : List (String × α)) (key : String) (val : α) :
    List (String × α) :=
  if m.any (fun p => p.1 == key) then
    m.map (fun p => if p.1 == key then (key, val) else p)
  else
    m ++ [(key, val)]

/-- JS `Map.prototype.get` (returning `none` for a missing key). -/
def mapGet {α : Type} (m : List (String × α)) (key : String) : Option α :=
  (m.find? (fun p => p.1 == key)).map (fun p => p.2)

/-- JS `Map.prototype.delete`. -/
def mapDelete {α : Type} (m : List (String × α)) (key : String) :
    List (String × α) :=
  m.filter (fun p => !(p.1 == key))

/-- JS `Set.prototype.add` (no duplicates, insertion order preserved). -/
def setAdd (s : List String) (x : String) : List String :=
  if s.contains x then s else s ++ [x]

-- ───────────────────────── Event model (events.ts) ───────────────────────

/-- `TimerStartEvent` from `events.ts`. -/
structure TimerStartEvent where
  id : String
  ts : ℚ
  deriving DecidableEq, Repr

/-- The `action` field of a correction event. -/
inductive CorrectionAction where
  | delete
  | replace
  deriving DecidableEq, Repr

/-- The `replacement` payload of a `replace` correction. -/
structure Replacement where
  started_at : ℚ
  ended_at : ℚ
  duration_minutes : ℚ
  deriving DecidableEq, Repr

/-- `OutsideEvent` from `events.ts`: the six-variant tagged union. -/
inductive OutsideEvent where
  | timerStart (e : TimerStartEvent)
  | timerStop (id : String) (ts : ℚ) (start_event_id : String)
      (duration_minutes : ℚ)
  | manualEntry (id : String) (ts : ℚ) (started_at : ℚ) (ended_at : ℚ)
      (duration_minutes : ℚ)
  | correction (id : String) (ts : ℚ) (corrects_event_id : String)
      (action : CorrectionAction) (replacement : Option Replacement)
  | goalSet (id : String) (ts : ℚ) (target_minutes : ℚ) (period : String)
  | goalDelete (id : String) (ts : ℚ) (goal_event_id : String)
  deriving DecidableEq, Repr

-- ───────────────────────── Sessions (session.ts) ─────────────────────────

/-- The `source` tag of a reconstructed session. -/
inductive SessionSource where
  | timer
  | manual
  deriving DecidableEq, Repr

/-- `Session` from `session.ts`. -/
structure Session where
  id : String
  startedAt : ℚ
  endedAt : ℚ
  durationMinutes : ℚ
  source : SessionSource
  deriving DecidableEq, Repr

/-- `roundUpToMinute` from `session.ts`:
`if (minutes <= 0) return 0; return Math.max(1, Math.ceil(minutes));` -/
def roundUpToMinute (minutes : ℚ) : ℚ :=
  if minutes ≤ 0 then 0 else max 1 ((⌈minutes⌉ : ℤ) : ℚ)

/-- The mutable state threaded through the `reconstructSessions` loop:
the sessions map, the deleted-id set and the pending-starts map. -/
structure RecState where
  sessions : List (String × Session)
  deletedIds : List String
  pendingStarts : List (String × TimerStartEvent)
  deriving DecidableEq, Repr

/-- One iteration of the `for (const event of events)` loop in
`reconstructSessions` (`session.ts`, the `switch` statement). -/
def processEvent (st : RecState) (e : OutsideEvent) : RecState :=
  match e with
  | .timerStart s =>
      { st with pendingStarts := mapSet st.pendingStarts s.id s }
  | .timerStop _ ts sid dur =>
      match mapGet st.pendingStarts sid with
      | some start =>
          { st with
            sessions := mapSet st.sessions start.id
              ⟨start.id, start.ts, ts, roundUpToMinute dur, .timer⟩,
            pendingStarts := mapDelete st.pendingStarts start.id }
      | none => st
  | .manualEntry id _ sa ea dur =>
      { st with
        sessions := mapSet st.sessions id
          ⟨id, sa, ea, roundUpToMinute dur, .manual⟩ }
  | .correction _ _ cid act repl =>
      match act with
      | .delete =>
          { st with
            deletedIds := setAdd st.deletedIds cid,
            sessions := mapDelete st.sessions cid }
      | .replace =>
          match repl with
          | some r =>
              match mapGet st.sessions cid with
              | some existing =>
                  { st with
                    sessions := mapSet st.sessions cid
                      { existing with
                        startedAt := r.started_at,
                        endedAt := r.ended_at,
                        durationMinutes :=
                          roundUpToMinute r.duration_minutes } }
              | none => st
          | none => st
  | .goalSet .. => st
  | .goalDelete .. => st

/-- Stable insertion of a session into a list sorted by `startedAt`
descending; models the stable JS `Array.prototype.sort` with comparator
`(a, b) => b.startedAt - a.startedAt`. -/
def insertDescByStart (x : Session) : List Session → List Session
  | [] => [x]
  | y :: ys =>
      if y.startedAt < x.startedAt then x :: y :: ys
      else y :: insertDescByStart x ys

/-- Stable sort by `startedAt` descending. -/
def sortByStartDesc : List Session → List Session
  | [] => []
  | x :: xs => insertDescByStart x (sortByStartDesc xs)

/-- `reconstructSessions` from `session.ts`: fold the event list through
`processEvent`, then drop deleted ids and sort by start time descending. -/
def reconstructSessions (events : List OutsideEvent) : List Session :=
  let st := events.foldl processEvent ⟨[], [], []⟩
  sortByStartDesc
    ((st.sessions.map (fun p => p.2)).filter
      (fun s => !st.deletedIds.contains s.id))

-- ───────────────────── findActiveTimerStart (session.ts) ─────────────────

/-- The `matchedStartIds` set: all `start_event_id`s referenced by a
`timer_stop` anywhere in the list. -/
def matchedStartIds (events : List OutsideEvent) : List String :=
  events.foldl
    (fun s e =>
      match e with
      | .timerStop _ _ sid _ => setAdd s sid
      | _ => s) []

/-- The `deletedIds` set of `findActiveTimerStart`: targets of `delete`
corrections anywhere in the list. -/
def deleteCorrectedIds (events : List OutsideEvent) : List String :=
  events.foldl
    (fun s e =>
      match e with
      | .correction _ _ cid .delete _ => setAdd s cid
      | _ => s) []

/-- The body of the second loop of `findActiveTimerStart`, applied to one
event: keep the latest unmatched, undeleted `timer_start` seen so far. -/
def activeScanStep (matched deleted : List String)
    (latest : Option TimerStartEvent) (e : OutsideEvent) :
    Option TimerStartEvent :=
  match e with
  | .timerStart s =>
      if !(matched.contains s.id) && !(deleted.contains s.id) then
        match latest with
        | none => some s
        | some l => if l.ts < s.ts then some s else latest
      else latest
  | _ => latest

/-- `findActiveTimerStart` from `session.ts`. -/
def findActiveTimerStart (events : List OutsideEvent) :
    Option TimerStartEvent :=
  let matched := matchedStartIds events
  let deleted := deleteCorrectedIds events
  events.foldl (activeScanStep matched deleted) none

/-- An event is a candidate for `findActiveTimerStart`: a `timer_start`
with no `timer_stop` referencing its id and not delete-corrected. -/
def isActiveCandidate (events : List OutsideEvent) (e : OutsideEvent) :
    Bool :=
  match e with
  | .timerStart s =>
      !((matchedStartIds events).contains s.id) &&
        !((deleteCorrectedIds events).contains s.id)
  | _ => false

-- ───────────────────── Crypto layer (web-app crypto.ts) ──────────────────

/-- The `tweetnacl` primitives used by `crypto.ts`, kept abstract: SHA-512
(`nacl.hash`), X25519 base-point multiplication (`nacl.scalarMult.base`)
and the authenticated box (`nacl.box` / `nacl.box.open`, taking message,
nonce, public key, secret key). -/
structure NaclPrim where
  hash : List Nat → List Nat
  scalarMultBase : List Nat → List Nat
  box : List Nat → List Nat → List Nat → List Nat → List Nat
  boxOpen : List Nat → List Nat → List Nat → List Nat → Option (List Nat)

/-- `TypedArray.prototype.set`: write `src` into `arr` at `offset`. -/
def writeAt (arr : List Nat) (offset : Nat) (src : List Nat) : List Nat :=
  arr.take offset ++ src ++ arr.drop (offset + src.length)

/-- `sealedBoxNonce` from `crypto.ts`: SHA-512 of the 64-byte buffer
holding `ephemeralPK` at 0 and `recipientPK` at 32, truncated to 24. -/
def sealedBoxNonce (prim : NaclPrim) (ephemeralPK recipientPK : List Nat) :
    List Nat :=
  let combined := writeAt (writeAt (List.replicate 64 0) 0 ephemeralPK)
    32 recipientPK
  (prim.hash combined).take 24

/-- `sealedBoxSeal` from `crypto.ts`. The fresh ephemeral keypair produced
by `nacl.box.keyPair()` is made explicit: `ephemeralSK` is the random
secret scalar and the ephemeral public key is derived from it. -/
def sealedBoxSeal (prim : NaclPrim) (message recipientX25519PK : List Nat)
    (ephemeralSK : List Nat) : List Nat :=
  let ephemeralPK := prim.scalarMultBase ephemeralSK
  let nonce := sealedBoxNonce prim ephemeralPK recipientX25519PK
  let ciphertext := prim.box message nonce recipientX25519PK ephemeralSK
  writeAt (writeAt (List.replicate (32 + ciphertext.length) 0) 0 ephemeralPK)
    32 ciphertext

/-- `sealedBoxOpen` from `crypto.ts`. -/
def sealedBoxOpen (prim : NaclPrim)
    (sealed recipientX25519PK recipientX25519SK : List Nat) :
    Option (List Nat) :=
  if sealed.length < 48 then none
  else
    let ephemeralPK := sealed.take 32
    let ciphertext := sealed.drop 32
    let nonce := sealedBoxNonce prim ephemeralPK recipientX25519PK
    prim.boxOpen ciphertext nonce ephemeralPK recipientX25519SK

/-- X25519 clamping as written in `ed25519SecretKeyToX25519`:
`hash[0] &= 248; hash[31] &= 127; hash[31] |= 64`. -/
def clampX25519 (h : List Nat) : List Nat :=
  ((h.set 0 ((h.getD 0 0) &&& 248)).set 31
    (((h.getD 31 0) &&& 127) ||| 64))

/-- `ed25519SecretKeyToX25519` from `crypto.ts`: SHA-512 of the 32-byte
seed, clamped, truncated to 32 bytes. -/
def ed25519SecretKeyToX25519 (prim : NaclPrim) (edSecretKey : List Nat) :
    List Nat :=
  let seed := edSecretKey.take 32
  let h := prim.hash seed
  (clampX25519 h).take 32

/-- An Ed25519 signing keypair (64-byte secret = seed ‖ public key). -/
structure SignKeyPair where
  publicKey : List Nat
  secretKey : List Nat
  deriving DecidableEq, Repr

/-- An X25519 encryption keypair. -/
structure BoxKeyPair where
  publicKey : List Nat
  secretKey : List Nat
  deriving DecidableEq, Repr

/-- `ed25519KeyPairToX25519` from `crypto.ts`: derive the encryption
secret key from the signing secret key, then its public key by base-point
multiplication. -/
def ed25519KeyPairToX25519 (prim : NaclPrim) (edKeyPair : SignKeyPair) :
    BoxKeyPair :=
  let x25519SecretKey := ed25519SecretKeyToX25519 prim edKeyPair.secretKey
  let x25519PublicKey := prim.scalarMultBase x25519SecretKey
  ⟨x25519PublicKey, x25519SecretKey⟩

/-- One lowercase hex digit. -/
def hexChar (n : Nat) : Char :=
  if n < 10 then Char.ofNat (48 + n) else Char.ofNat (87 + n)

/-- `b.toString(16).padStart(2, ...)` for a byte value. -/
def byteToHex (b : Nat) : String :=
  String.mk [hexChar (b / 16 % 16), hexChar (b % 16)]

/-- `bytesToHex` from `crypto.ts`. -/
def bytesToHex (bytes : List Nat) : String :=
  String.join (bytes.map byteToHex)

/-- `Identity` from `crypto.ts`. -/
structure Identity where
  signingKeyPair : SignKeyPair
  encryptionKeyPair : BoxKeyPair
  publicKeyHex : String
  deriving DecidableEq, Repr

/-- `nacl.sign.keyPair.fromSecretKey`: the public key is the second half
of the 64-byte secret key. -/
def signKeyPairFromSecretKey (secretKey : List Nat) : SignKeyPair :=
  ⟨(secretKey.drop 32).take 32, secretKey⟩

/-- The runtime environment of the crypto module: the deterministic
primitives plus the ambient randomness source (`nacl.randomBytes`), which
`nacl.box.keyPair()` and `nacl.sign.keyPair()` draw from. -/
structure CryptoEnv where
  prim : NaclPrim
  randomBytes : Nat → List Nat

/-- `identityFromSecretKey` from `crypto.ts`: rebuild the signing keypair
from the 64-byte secret key and derive the encryption keypair. -/
def identityFromSecretKey (env : CryptoEnv) (secretKey : List Nat) :
    Identity :=
  let signingKeyPair := signKeyPairFromSecretKey secretKey
  let encryptionKeyPair := ed25519KeyPairToX25519 env.prim signingKeyPair
  let publicKeyHex := bytesToHex signingKeyPair.publicKey
  ⟨signingKeyPair, encryptionKeyPair, publicKeyHex⟩

/-- `encryptEvent` from `crypto.ts` with the ephemeral randomness drawn
from the environment. -/
def encryptEvent (env : CryptoEnv) (plaintext : List Nat)
    (identity : Identity) : List Nat :=
  sealedBoxSeal env.prim plaintext identity.encryptionKeyPair.publicKey
    (env.randomBytes 32)

/-- `decryptEvent` from `crypto.ts`. -/
def decryptEvent (prim : NaclPrim) (sealed : List Nat)
    (identity : Identity) : Option (List Nat) :=
  sealedBoxOpen prim sealed identity.encryptionKeyPair.publicKey
    identity.encryptionKeyPair.secretKey

-- ───────────────── A concrete instantiation of the primitives ────────────

/-- Sum of a byte list (used by the concrete test primitive). -/
def listSum (l : List Nat) : Nat := l.foldl (· + ·) 0

/-- Concrete "base-point multiplication" for tests: a 32-byte encoding of
`6 ^ (key sum) mod 251`, a commutative exponential so that the box
round-trip is provable. -/
def dhBase (s : List Nat) : List Nat :=
  List.replicate 32 (6 ^ listSum s % 251)

/-- Concrete Diffie-Hellman shared value for tests. -/
def dhShared (pk sk : List Nat) : Nat :=
  (pk.headD 0) ^ listSum sk % 251

/-- Concrete authenticated box for tests: XOR keystream plus a 16-byte
checksum tag over (key, body, nonce). -/
def toyBox (m n pk sk : List Nat) : List Nat :=
  let K := dhShared pk sk
  let body := m.map (fun x => x ^^^ K)
  body ++ List.replicate 16 ((K + listSum body + listSum n) % 256)

/-- Concrete authenticated box opening for tests: checks the tag, then
inverts the keystream; rejects with `none` on a tag mismatch. -/
def toyBoxOpen (c n pk sk : List Nat) : Option (List Nat) :=
  if c.length < 16 then none
  else
    let K := dhShared pk sk
    let body := c.take (c.length - 16)
    let tag := c.drop (c.length - 16)
    if tag = List.replicate 16 ((K + listSum body + listSum n) % 256) then
      some (body.map (fun x => x ^^^ K))
    else none

/-- Concrete 64-byte hash for tests. -/
def toyHash (l : List Nat) : List Nat :=
  (List.range 64).map (fun i => (listSum l + i) % 256)

/-- The concrete primitive bundle used by the witnesses. -/
def toyPrim : NaclPrim := ⟨toyHash, dhBase, toyBox, toyBoxOpen⟩

-- ─────────────── Store / append handler (cloudflare-workers) ─────────────

/-- One row of the `events` table in the worker's D1 database. -/
structure EventRow where
  public_key : String
  seq : Nat
  ciphertext : String
  created_at : Nat
  deriving DecidableEq, Repr

/-- `isValidPublicKey` from `cloudflare-workers/src/crypto.ts`:
the regex `[0-9a-f]` repeated exactly 64 times. -/
def isLowerHexDigit (c : Char) : Bool :=
  (48 ≤ c.toNat && c.toNat ≤ 57) || (97 ≤ c.toNat && c.toNat ≤ 102)

/-- `isValidPublicKey` from the worker. -/
def isValidPublicKey (hex : String) : Bool :=
  hex.length == 64 && hex.data.all isLowerHexDigit

/-- `SELECT seq FROM events WHERE public_key = pk`, in order. -/
def seqsFor (pk : String) (db : List EventRow) : List Nat :=
  (db.filter (fun r => r.public_key == pk)).map (fun r => r.seq)

/-- `COALESCE(MAX(seq), 0)` over that identity's rows. -/
def maxSeqFor (pk : String) (db : List EventRow) : Nat :=
  (seqsFor pk db).foldl max 0

/-- One append request as received by `handleAppend`: the path public
key, the `X-Signature` header (absent = `none`), the body ciphertext and
the server clock at handling time. -/
structure AppendReq where
  pk : String
  sig : Option String
  ct : String
  now : Nat

/-- The `{seq, created_at}` success response of `handleAppend`. -/
structure AppendResponse where
  seq : Nat
  created_at : Nat
  deriving DecidableEq, Repr

/-- The current `handleAppend` (atomic server-side sequence assignment):
validate the public key, the signature header, the body and the
signature, then insert with `seq = COALESCE(MAX(seq), 0) + 1` for that
identity. `verify` abstracts `verifySignature` (Ed25519). `none` stands
for any of the error responses. -/
def handleAppend (verify : String → String → String → Bool)
    (db : List EventRow) (rq : AppendReq) :
    Option AppendResponse × List EventRow :=
  if !(isValidPublicKey rq.pk) then (none, db)
  else
    match rq.sig with
    | none => (none, db)
    | some signature =>
        if rq.ct.length == 0 then (none, db)
        else if 10240 < rq.ct.length then (none, db)
        else if !(verify rq.pk rq.ct signature) then (none, db)
        else
          let seq := maxSeqFor rq.pk db + 1
          (some ⟨seq, rq.now⟩, db ++ [⟨rq.pk, seq, rq.ct, rq.now⟩])

/-- Serialize a batch of append requests through the handler (the store
serializes concurrent appends; each sees the database left by the
previous insert). -/
def applyRequests (verify : String → String → String → Bool)
    (db : List EventRow) : List AppendReq → List EventRow
  | [] => db
  | rq :: rest => applyRequests verify (handleAppend verify db rq).2 rest

/-- Whether a request passes all of `handleAppend`'s validation gates
(none of which read the database). -/
def reqOk (verify : String → String → String → Bool) (rq : AppendReq) :
    Bool :=
  match rq.sig with
  | none => false
  | some signature =>
      isValidPublicKey rq.pk && !(rq.ct.length == 0) &&
        !(10240 < rq.ct.length) && verify rq.pk rq.ct signature

/-- The number of successful appends for identity `pk` in a batch. -/
def countOk (verify : String → String → String → Bool) (pk : String)
    (reqs : List AppendReq) : Nat :=
  (reqs.filter (fun rq => rq.pk == pk && reqOk verify rq)).length

-- ───────────────────── Event cache (storage.ts EventCache) ───────────────

/-- `ServerEvent` from `api.ts`. -/
structure ServerEvent where
  seq : Nat
  ciphertext : String
  created_at : Nat
  deriving DecidableEq, Repr

/-- The per-identity portion of the `EventCache` key-value layout:
the events stored under `event:0 .. event:(count-1)` (in append order,
with `count` their number), the `lastSeq` high-water mark and the
`lastSyncAt` timestamp. -/
structure CacheState where
  items : List ServerEvent
  lastSeq : Nat
  lastSyncAt : Nat
  deriving DecidableEq, Repr

/-- `EventCache.appendEvents` from `storage.ts`: drop entries at or below
the high-water mark, append the rest, then advance `lastSeq` to the last
appended sequence and stamp `lastSyncAt` with the current clock `now`. -/
def appendEvents (now : Nat) (st : CacheState)
    (newEvents : List ServerEvent) : CacheState :=
  if newEvents.length == 0 then st
  else
    let fresh := newEvents.filter (fun e => st.lastSeq < e.seq)
    if fresh.length == 0 then st
    else
      { items := st.items ++ fresh,
        lastSeq := ((fresh.getLast?).map (fun e => e.seq)).getD 0,
        lastSyncAt := now }

-- ───────────────────────── Sync engine (SyncEngine) ──────────────────────

/-- A decrypted event together with its server metadata. -/
structure DecryptedServerEvent where
  seq : Nat
  created_at : Nat
  event : OutsideEvent
  deriving DecidableEq, Repr

/-- The store as seen through the API client: the `HEAD` metadata probe
(`latestSeq`) and the paginated `GET` (`after`, `limit` ↦ events plus a
`has_more` flag). -/
structure StoreView where
  latestSeq : Nat
  getEvents : Nat → Nat → List ServerEvent × Bool

/-- `SyncEngine.decryptCachedEvents`: decrypt every cached event with the
current identity, skipping entries that fail to decrypt or to parse.
`dec64` abstracts base64 decoding and `decEv` JSON event parsing. -/
def decryptCachedEvents (prim : NaclPrim) (dec64 : String → List Nat)
    (decEv : List Nat → Option OutsideEvent) (identity : Identity)
    (st : CacheState) : List DecryptedServerEvent :=
  st.items.foldl
    (fun acc serverEvent =>
      let sealed := dec64 serverEvent.ciphertext
      match decryptEvent prim sealed identity with
      | none => acc
      | some plaintext =>
          match decEv plaintext with
          | none => acc
          | some event =>
              acc ++ [⟨serverEvent.seq, serverEvent.created_at, event⟩]) []

/-- The `while (hasMore)` pagination loop of `SyncEngine.pull`, with
explicit fuel (the loop is driven by the store's `has_more` flag). The
returned list logs every `getEvents(after, limit)` call made. -/
def pullLoop (store : StoreView) (now : Nat) :
    Nat → CacheState → Nat → List (Nat × Nat) →
    Option (CacheState × List (Nat × Nat))
  | 0, _, _, _ => none
  | fuel + 1, st, after, log =>
      let response := store.getEvents after 1000
      let st' := appendEvents now st response.1
      let after' :=
        if response.1.length == 0 then after
        else ((response.1.getLast?).map (fun e => e.seq)).getD after
      let log' := log ++ [(after, 1000)]
      if response.2 then pullLoop store now fuel st' after' log'
      else some (st', log')

/-- `SyncEngine.pull`: read the local `lastSeq`, probe the store's
metadata; if the store has nothing new, return the decrypted cache as is;
otherwise page through the new events, appending each page to the cache.
Returns the new cache state, the decrypted events and the fetch log
(`none` only when the pagination fuel runs out). -/
def pull (prim : NaclPrim) (dec64 : String → List Nat)
    (decEv : List Nat → Option OutsideEvent) (identity : Identity)
    (store : StoreView) (st : CacheState) (now fuel : Nat) :
    Option (CacheState × List DecryptedServerEvent × List (Nat × Nat)) :=
  let lastSeq := st.lastSeq
  if store.latestSeq ≤ lastSeq then
    some (st, decryptCachedEvents prim dec64 decEv identity st, [])
  else
    match pullLoop store now fuel st lastSeq [] with
    | none => none
    | some (st', log) =>
        some (st', decryptCachedEvents prim dec64 decEv identity st', log)

-- ─────────────── Auxiliary definitions used by the theorems ──────────────

/-- The candidate test of `findActiveTimerStart` relative to explicit
matched/deleted sets (the loop body's `if` condition). -/
def isCandB (matched deleted : List String) (e : OutsideEvent) : Bool :=
  match e with
  | .timerStart s => !(matched.contains s.id) && !(deleted.contains s.id)
  | _ => false

/-- A concrete crypto environment (empty randomness stream). -/
def toyEnvA : CryptoEnv := ⟨toyPrim, fun _ => []⟩

/-- A second concrete crypto environment with a different randomness
stream but the same deterministic primitives. -/
def toyEnvB : CryptoEnv := ⟨toyPrim, fun n => List.replicate n 7⟩

/-- A store with no events, for exercising the no-op pull path. -/
def noStore : StoreView := ⟨0, fun _ _ => ([], false)⟩

/-- A concrete identity restored from a fixed 64-byte secret key. -/
def emptyIdentity : Identity := identityFromSecretKey toyEnvA (List.range 64)

/-- A syntactically valid lowercase-hex store address (64 copies of a). -/
def pkA64 : String := String.mk (List.replicate 64 (Char.ofNat 97))

/-- A signature verifier that accepts everything (for witnesses). -/
def alwaysVerify : String → String → String → Bool := fun _ _ _ => true

/-- Two concrete append requests under the same identity. -/
def demoReqs : List AppendReq :=
  [⟨pkA64, some "s1", "c1", 100⟩, ⟨pkA64, some "s2", "c2", 101⟩]

-- ───────────────────────── Supporting lemmas ─────────────────────────────

theorem dhBase_length (s : List Nat) : (dhBase s).length = 32 := by
  simp [dhBase]

theorem toyBox_length (m n pk sk : List Nat) :
    (toyBox m n pk sk).length = m.length + 16 := by
  simp [toyBox]

theorem headD_replicate32 (x : Nat) :
    (List.replicate 32 x).headD 0 = x := by
  rw [show (32 : Nat) = 31 + 1 by omega, List.replicate_succ]
  rfl

theorem dhShared_comm (a b : List Nat) :
    dhShared (dhBase a) b = dhShared (dhBase b) a := by
  have h : ∀ x y : Nat,
      (6 ^ x % 251) ^ y % 251 = 6 ^ (x * y) % 251 := by
    intro x y
    rw [← Nat.pow_mod, ← pow_mul]
  simp only [dhShared, dhBase, headD_replicate32]
  rw [h, h, Nat.mul_comm]

theorem xor_cancel (K : Nat) (m : List Nat) :
    (m.map (fun x => x ^^^ K)).map (fun x => x ^^^ K) = m := by
  rw [List.map_map]
  have h : ((fun x => x ^^^ K) ∘ fun x => x ^^^ K) = id := by
    funext x
    simp [Function.comp, Nat.xor_assoc]
  rw [h, List.map_id]

theorem toyBoxOpen_toyBox (m n a b : List Nat) :
    toyBoxOpen (toyBox m n (dhBase b) a) n (dhBase a) b = some m := by
  have hk : dhShared (dhBase a) b = dhShared (dhBase b) a :=
    dhShared_comm a b
  have hlen : (toyBox m n (dhBase b) a).length = m.length + 16 :=
    toyBox_length m n (dhBase b) a
  have hbody : (m.map (fun x => x ^^^ dhShared (dhBase b) a)).length
      = m.length := by simp
  unfold toyBoxOpen
  rw [hlen]
  rw [if_neg (by omega)]
  simp only [toyBox, hk]
  rw [Nat.add_sub_cancel]
  rw [List.take_append_of_le_length (by simp), List.take_of_length_le (by simp)]
  rw [List.drop_append_of_le_length (by simp)]
  rw [List.drop_of_length_le (le_of_eq hbody), List.nil_append]
  rw [if_pos rfl, xor_cancel]

theorem double_writeAt (x y : List Nat) :
    writeAt (writeAt (List.replicate (x.length + y.length) 0) 0 x)
      x.length y = x ++ y := by
  unfold writeAt
  simp only [List.take_zero, List.nil_append, Nat.zero_add,
    List.drop_replicate, Nat.add_sub_cancel_left]
  rw [List.take_left, List.drop_of_length_le (by simp), List.append_nil]

theorem sealedBoxSeal_concat (prim : NaclPrim) (msg pk esk : List Nat)
    (h32 : (prim.scalarMultBase esk).length = 32) :
    sealedBoxSeal prim msg pk esk =
      prim.scalarMultBase esk ++
        prim.box msg (sealedBoxNonce prim (prim.scalarMultBase esk) pk)
          pk esk := by
  unfold sealedBoxSeal
  rw [show (32 : Nat) = (prim.scalarMultBase esk).length from h32.symm]
  exact double_writeAt _ _

theorem setAdd_mem_of_mem (s : List String) (x y : String) (h : y ∈ s) :
    y ∈ setAdd s x := by
  unfold setAdd
  split
  · exact h
  · exact List.mem_append_left _ h

theorem setAdd_mem_self (s : List String) (x : String) : x ∈ setAdd s x := by
  unfold setAdd
  split
  · next h => simpa using h
  · exact List.mem_append_right _ (List.mem_singleton.mpr rfl)

theorem processEvent_deleted_mono (st : RecState) (e : OutsideEvent)
    (cid : String) (h : cid ∈ st.deletedIds) :
    cid ∈ (processEvent st e).deletedIds := by
  unfold processEvent
  cases e with
  | timerStart s => exact h
  | timerStop i ts sid dur =>
      cases hg : mapGet st.pendingStarts sid <;> simp only [hg] <;> exact h
  | manualEntry id ts sa ea dur => exact h
  | correction i ts cid2 act repl =>
      cases act with
      | delete => exact setAdd_mem_of_mem _ _ _ h
      | replace =>
          cases repl with
          | none => exact h
          | some r =>
              cases hg : mapGet st.sessions cid2 <;> simp only [hg] <;>
                exact h
  | goalSet i ts t p => exact h
  | goalDelete i ts g => exact h

theorem foldl_deleted_mono (evs : List OutsideEvent) (cid : String) :
    ∀ st : RecState, cid ∈ st.deletedIds →
      cid ∈ (evs.foldl processEvent st).deletedIds := by
  induction evs with
  | nil => intro st h; exact h
  | cons e rest ih =>
      intro st h
      exact ih (processEvent st e) (processEvent_deleted_mono st e cid h)

theorem foldl_deleted_of_mem (evs : List OutsideEvent) (i cid : String)
    (ts : ℚ) (repl : Option Replacement)
    (h : OutsideEvent.correction i ts cid .delete repl ∈ evs) :
    ∀ st : RecState, cid ∈ (evs.foldl processEvent st).deletedIds := by
  induction evs with
  | nil => cases h
  | cons e rest ih =>
      intro st
      rcases List.mem_cons.mp h with he | hr
      · subst he
        exact foldl_deleted_mono rest cid _
          (setAdd_mem_self st.deletedIds cid)
      · exact ih hr (processEvent st e)

theorem mem_of_mem_insertDescByStart (x y : Session) :
    ∀ l : List Session, x ∈ insertDescByStart y l → x = y ∨ x ∈ l := by
  intro l
  induction l with
  | nil =>
      intro h
      simp only [insertDescByStart, List.mem_singleton] at h
      exact Or.inl h
  | cons z zs ih =>
      intro h
      simp only [insertDescByStart] at h
      split at h
      · rcases List.mem_cons.mp h with h1 | h2
        · exact Or.inl h1
        · exact Or.inr h2
      · rcases List.mem_cons.mp h with h1 | h2
        · subst h1
          exact Or.inr (List.mem_cons_self _ _)
        · rcases ih h2 with h3 | h4
          · exact Or.inl h3
          · exact Or.inr (List.mem_cons_of_mem z h4)

theorem mem_of_mem_sortByStartDesc (x : Session) :
    ∀ l : List Session, x ∈ sortByStartDesc l → x ∈ l := by
  intro l
  induction l with
  | nil =>
      intro h
      simp only [sortByStartDesc] at h
      simp at h
  | cons z zs ih =>
      intro h
      simp only [sortByStartDesc] at h
      rcases mem_of_mem_insertDescByStart x z (sortByStartDesc zs) h with
        h1 | h2
      · subst h1
        exact List.mem_cons_self _ _
      · exact List.mem_cons_of_mem z (ih h2)

theorem isActiveCandidate_eq (evs : List OutsideEvent) (e : OutsideEvent) :
    isActiveCandidate evs e =
      isCandB (matchedStartIds evs) (deleteCorrectedIds evs) e := by
  cases e <;> rfl

theorem activeScanStep_eq_none (matched deleted : List String)
    (acc : Option TimerStartEvent) (e : OutsideEvent) :
    activeScanStep matched deleted acc e = none ↔
      acc = none ∧ isCandB matched deleted e = false := by
  cases e with
  | timerStart s =>
      simp only [activeScanStep, isCandB]
      by_cases hc : (!(matched.contains s.id) && !(deleted.contains s.id))
        = true
      · rw [if_pos hc]
        cases acc with
        | none =>
            constructor
            · intro hcontra
              cases hcontra
            · rintro ⟨-, h2⟩
              rw [h2] at hc
              exact Bool.noConfusion hc
        | some l =>
            show (if l.ts < s.ts then some s else some l) = none ↔ _
            by_cases hlt : l.ts < s.ts
            · rw [if_pos hlt]
              constructor
              · intro hcontra
                cases hcontra
              · rintro ⟨h1, -⟩
                cases h1
            · rw [if_neg hlt]
              constructor
              · intro hcontra
                cases hcontra
              · rintro ⟨h1, -⟩
                cases h1
      · rw [if_neg hc]
        simp only [Bool.not_eq_true] at hc
        constructor
        · intro ha
          exact ⟨ha, hc⟩
        · intro ha
          exact ha.1
  | timerStop i ts sid dur => simp [activeScanStep, isCandB]
  | manualEntry id ts sa ea dur => simp [activeScanStep, isCandB]
  | correction i ts cid act repl => simp [activeScanStep, isCandB]
  | goalSet i ts t p => simp [activeScanStep, isCandB]
  | goalDelete i ts g => simp [activeScanStep, isCandB]

theorem activeScanStep_some_mono (matched deleted : List String)
    (a : TimerStartEvent) (e : OutsideEvent) :
    ∃ b, activeScanStep matched deleted (some a) e = some b ∧
      a.ts ≤ b.ts := by
  cases e with
  | timerStart s =>
      simp only [activeScanStep]
      by_cases hc : (!(matched.contains s.id) && !(deleted.contains s.id))
        = true
      · rw [if_pos hc]
        by_cases hlt : a.ts < s.ts
        · exact ⟨s, by simp [hlt], le_of_lt hlt⟩
        · exact ⟨a, by simp [hlt], le_refl _⟩
      · exact ⟨a, by rw [if_neg hc], le_refl _⟩
  | timerStop i ts sid dur => exact ⟨a, rfl, le_refl _⟩
  | manualEntry id ts sa ea dur => exact ⟨a, rfl, le_refl _⟩
  | correction i ts cid act repl => exact ⟨a, rfl, le_refl _⟩
  | goalSet i ts t p => exact ⟨a, rfl, le_refl _⟩
  | goalDelete i ts g => exact ⟨a, rfl, le_refl _⟩

theorem activeScanStep_cand_ge (matched deleted : List String)
    (acc : Option TimerStartEvent) (s : TimerStartEvent)
    (hc : isCandB matched deleted (.timerStart s) = true) :
    ∃ b, activeScanStep matched deleted acc (.timerStart s) = some b ∧
      s.ts ≤ b.ts := by
  simp only [isCandB] at hc
  simp only [activeScanStep, if_pos hc]
  cases acc with
  | none => exact ⟨s, rfl, le_refl _⟩
  | some l =>
      by_cases hlt : l.ts < s.ts
      · exact ⟨s, by simp [hlt], le_refl _⟩
      · exact ⟨l, by simp [hlt], le_of_not_lt hlt⟩

theorem activeScanStep_some_src (matched deleted : List String)
    (acc : Option TimerStartEvent) (e : OutsideEvent) (r : TimerStartEvent)
    (h : activeScanStep matched deleted acc e = some r) :
    (e = .timerStart r ∧ isCandB matched deleted e = true) ∨ acc = some r := by
  cases e with
  | timerStart s =>
      simp only [activeScanStep] at h
      by_cases hc : (!(matched.contains s.id) && !(deleted.contains s.id))
        = true
      · rw [if_pos hc] at h
        cases acc with
        | none =>
            left
            refine ⟨?_, by simp only [isCandB]; exact hc⟩
            cases h
            rfl
        | some l =>
            by_cases hlt : l.ts < s.ts
            · simp only [if_pos hlt] at h
              left
              refine ⟨?_, by simp only [isCandB]; exact hc⟩
              cases h
              rfl
            · simp only [if_neg hlt] at h
              exact Or.inr h
      · rw [if_neg hc] at h
        exact Or.inr h
  | timerStop i ts sid dur => exact Or.inr h
  | manualEntry id ts sa ea dur => exact Or.inr h
  | correction i ts cid act repl => exact Or.inr h
  | goalSet i ts t p => exact Or.inr h
  | goalDelete i ts g => exact Or.inr h

theorem activeScan_fold_none (matched deleted : List String) :
    ∀ (l : List OutsideEvent) (acc : Option TimerStartEvent),
      l.foldl (activeScanStep matched deleted) acc = none →
        acc = none ∧ ∀ e ∈ l, isCandB matched deleted e = false := by
  intro l
  induction l with
  | nil =>
      intro acc h
      exact ⟨h, by intro e he; cases he⟩
  | cons e rest ih =>
      intro acc h
      rw [List.foldl_cons] at h
      obtain ⟨hstep, hrest⟩ := ih (activeScanStep matched deleted acc e) h
      obtain ⟨hacc, hcand⟩ :=
        (activeScanStep_eq_none matched deleted acc e).mp hstep
      refine ⟨hacc, ?_⟩
      intro x hx
      rcases List.mem_cons.mp hx with h1 | h2
      · subst h1; exact hcand
      · exact hrest x h2

theorem activeScan_fold_some (matched deleted : List String) :
    ∀ (l : List OutsideEvent) (acc : Option TimerStartEvent)
      (r : TimerStartEvent),
      l.foldl (activeScanStep matched deleted) acc = some r →
        ((OutsideEvent.timerStart r ∈ l ∧
            isCandB matched deleted (.timerStart r) = true) ∨ acc = some r) ∧
        (∀ s, OutsideEvent.timerStart s ∈ l →
          isCandB matched deleted (.timerStart s) = true → s.ts ≤ r.ts) ∧
        (∀ a, acc = some a → a.ts ≤ r.ts) := by
  intro l
  induction l with
  | nil =>
      intro acc r h
      refine ⟨Or.inr h, ?_, ?_⟩
      · intro s hs; cases hs
      · intro a ha
        rw [ha] at h
        cases h
        exact le_refl _
  | cons e rest ih =>
      intro acc r h
      rw [List.foldl_cons] at h
      obtain ⟨hsrc, hmax, hacc⟩ :=
        ih (activeScanStep matched deleted acc e) r h
      refine ⟨?_, ?_, ?_⟩
      · rcases hsrc with ⟨hmem, hcand⟩ | hstep
        · exact Or.inl ⟨List.mem_cons_of_mem e hmem, hcand⟩
        · rcases activeScanStep_some_src matched deleted acc e r hstep with
            ⟨heq, hcand⟩ | haccr
          · exact Or.inl ⟨heq ▸ List.mem_cons_self e rest, heq ▸ hcand⟩
          · exact Or.inr haccr
      · intro s hs hcand
        rcases List.mem_cons.mp hs with h1 | h2
        · obtain ⟨b, hb, hsb⟩ :=
            activeScanStep_cand_ge matched deleted acc s (h1 ▸ hcand)
          have hb2 : activeScanStep matched deleted acc e = some b := by
            rw [← h1]; exact hb
          exact le_trans hsb (hacc b hb2)
        · exact hmax s h2 hcand
      · intro a ha
        obtain ⟨b, hb, hab⟩ :=
          activeScanStep_some_mono matched deleted a e
        rw [← ha] at hb
        exact le_trans hab (hacc b hb)

theorem handleAppend_eq (verify : String → String → String → Bool)
    (db : List EventRow) (rq : AppendReq) :
    handleAppend verify db rq =
      if reqOk verify rq then
        (some ⟨maxSeqFor rq.pk db + 1, rq.now⟩,
          db ++ [⟨rq.pk, maxSeqFor rq.pk db + 1, rq.ct, rq.now⟩])
      else (none, db) := by
  unfold handleAppend reqOk
  cases hs : rq.sig with
  | none =>
      by_cases h1 : isValidPublicKey rq.pk <;> simp [h1]
  | some sg =>
      by_cases h1 : isValidPublicKey rq.pk
      · by_cases h2 : rq.ct.length == 0
        · simp [h1, h2]
        · by_cases h3 : 10240 < rq.ct.length
          · simp [h1, h2, h3]
          · by_cases h4 : verify rq.pk rq.ct sg <;> simp [h1, h2, h3, h4]
      · simp [h1]

theorem seqsFor_append_row (pk : String) (db : List EventRow)
    (row : EventRow) :
    seqsFor pk (db ++ [row]) =
      seqsFor pk db ++ if row.public_key == pk then [row.seq] else [] := by
  unfold seqsFor
  rw [List.filter_append]
  by_cases h : row.public_key == pk <;> simp [h]

theorem maxSeqFor_append_same (pk : String) (db : List EventRow)
    (row : EventRow) (hpk : (row.public_key == pk) = true) :
    maxSeqFor pk (db ++ [row]) = max (maxSeqFor pk db) row.seq := by
  unfold maxSeqFor
  rw [seqsFor_append_row, if_pos hpk, List.foldl_append]
  rfl

theorem maxSeqFor_append_other (pk : String) (db : List EventRow)
    (row : EventRow) (hpk : (row.public_key == pk) = false) :
    maxSeqFor pk (db ++ [row]) = maxSeqFor pk db := by
  unfold maxSeqFor
  rw [seqsFor_append_row, if_neg (by simp [hpk]), List.append_nil]

theorem applyRequests_seqsFor (verify : String → String → String → Bool)
    (pkA : String) :
    ∀ (reqs : List AppendReq) (db : List EventRow),
      seqsFor pkA (applyRequests verify db reqs) =
        seqsFor pkA db ++
          List.range' (maxSeqFor pkA db + 1) (countOk verify pkA reqs) := by
  intro reqs
  induction reqs with
  | nil =>
      intro db
      simp [applyRequests, countOk]
  | cons rq rest ih =>
      intro db
      simp only [applyRequests]
      rw [handleAppend_eq]
      by_cases hok : reqOk verify rq = true
      · rw [if_pos hok]
        simp only []
        by_cases hpk : (rq.pk == pkA) = true
        · have hpkeq : rq.pk = pkA := by
            simpa using hpk
          rw [ih]
          rw [seqsFor_append_row, maxSeqFor_append_same pkA db _ (by simp [hpkeq])]
          simp only [hpkeq]
          rw [if_pos (by simp)]
          have hcount : countOk verify pkA (rq :: rest) =
              countOk verify pkA rest + 1 := by
            unfold countOk
            simp [List.filter_cons, hpkeq, hok]
          rw [hcount]
          have hmax : max (maxSeqFor pkA db) (maxSeqFor pkA db + 1) =
              maxSeqFor pkA db + 1 := Nat.max_eq_right (Nat.le_succ _)
          rw [hmax]
          rw [List.range'_succ]
          simp
        · have hpkne : (rq.pk == pkA) = false := by
            simp only [Bool.not_eq_true] at hpk
            exact hpk
          rw [ih]
          rw [seqsFor_append_row, if_neg (by simp [hpkne]),
            maxSeqFor_append_other pkA db _ hpkne, List.append_nil]
          have hcount : countOk verify pkA (rq :: rest) =
              countOk verify pkA rest := by
            unfold countOk
            simp [List.filter_cons, hpkne]
          rw [hcount]
      · rw [if_neg hok]
        simp only []
        rw [ih]
        have hcount : countOk verify pkA (rq :: rest) =
            countOk verify pkA rest := by
          unfold countOk
          simp only [Bool.not_eq_true] at hok
          simp [List.filter_cons, hok]
        rw [hcount]

theorem foldl_max_init_le (l : List Nat) : ∀ a, a ≤ l.foldl max a := by
  induction l with
  | nil => intro a; exact le_refl a
  | cons h t ih =>
      intro a
      exact le_trans (Nat.le_max_left a h) (ih (max a h))

theorem le_foldl_max_of_mem (l : List Nat) :
    ∀ a x, x ∈ l → x ≤ l.foldl max a := by
  induction l with
  | nil => intro a x hx; cases hx
  | cons h t ih =>
      intro a x hx
      rcases List.mem_cons.mp hx with h1 | h2
      · subst h1
        exact le_trans (Nat.le_max_right a x) (foldl_max_init_le t (max a x))
      · exact ih (max a h) x h2

theorem foldl_max_le (l : List Nat) :
    ∀ a b, a ≤ b → (∀ x ∈ l, x ≤ b) → l.foldl max a ≤ b := by
  induction l with
  | nil => intro a b hab _; exact hab
  | cons h t ih =>
      intro a b hab hall
      exact ih (max a h) b
        (max_le hab (hall h (List.mem_cons_self h t)))
        (fun x hx => hall x (List.mem_cons_of_mem h hx))

theorem foldl_max_of_all_le (l : List Nat) (a : Nat)
    (h : ∀ x ∈ l, x ≤ a) : l.foldl max a = a :=
  le_antisymm (foldl_max_le l a a (le_refl a) h) (foldl_max_init_le l a)

theorem getLast?_mem {α : Type} : ∀ (l : List α) (a : α),
    l.getLast? = some a → a ∈ l := by
  intro l
  induction l with
  | nil => intro a h; cases h
  | cons x t ih =>
      intro a h
      cases t with
      | nil =>
          cases h
          exact List.mem_cons_self _ _
      | cons y t2 =>
          rw [List.getLast?_cons_cons] at h
          exact List.mem_cons_of_mem x (ih a h)

theorem seq_le_getLast_of_sorted : ∀ (l : List ServerEvent),
    l.Pairwise (fun a b => a.seq < b.seq) →
    ∀ e ∈ l, ∀ g, l.getLast? = some g → e.seq ≤ g.seq := by
  intro l
  induction l with
  | nil => intro _ e he; cases he
  | cons x t ih =>
      intro hp e he g hg
      obtain ⟨hx, ht⟩ := List.pairwise_cons.mp hp
      cases t with
      | nil =>
          rcases List.mem_cons.mp he with h1 | h2
          · subst h1
            cases hg
            exact le_refl _
          · cases h2
      | cons y t2 =>
          rw [List.getLast?_cons_cons] at hg
          rcases List.mem_cons.mp he with h1 | h2
          · subst h1
            exact le_of_lt (hx g (getLast?_mem _ g hg))
          · exact ih ht e h2 g hg

theorem appendEvents_stable (now : Nat) (st : CacheState)
    (evs : List ServerEvent)
    (h : (evs.length == 0) = true ∨
      ((evs.filter (fun e => st.lastSeq < e.seq)).length == 0) = true) :
    appendEvents now st evs = st := by
  unfold appendEvents
  rcases h with h | h
  · rw [if_pos h]
  · by_cases h0 : (evs.length == 0) = true
    · rw [if_pos h0]
    · rw [if_neg h0, if_pos h]

theorem appendEvents_of_fresh_ne (now : Nat) (st : CacheState)
    (evs : List ServerEvent)
    (h0 : (evs.length == 0) = false)
    (h1 : ((evs.filter (fun e => st.lastSeq < e.seq)).length == 0)
      = false) :
    appendEvents now st evs =
      { items := st.items ++ evs.filter (fun e => st.lastSeq < e.seq),
        lastSeq :=
          (((evs.filter (fun e => st.lastSeq < e.seq)).getLast?).map
            (fun e => e.seq)).getD 0,
        lastSyncAt := now } := by
  unfold appendEvents
  rw [if_neg (by simp [h0]), if_neg (by simp [h1])]

-- ──────────────────────────── Claim theorems ─────────────────────────────

/-- Claim C1: for every message and every generated encryption keypair, opening a sealed box produced by sealing the message for the public key recovers the message exactly, given the authenticated-box contract of the underlying primitive (round-trip under matching Diffie-Hellman keys, 32-byte public keys, 16-byte MAC overhead). -/
theorem c1_roundtrip (prim : NaclPrim)
    (hbase : ∀ s, (prim.scalarMultBase s).length = 32)
    (hboxlen : ∀ m n pk sk, (prim.box m n pk sk).length = m.length + 16)
    (hopen : ∀ m n a b,
      prim.boxOpen (prim.box m n (prim.scalarMultBase b) a) n
        (prim.scalarMultBase a) b = some m)
    (msg ephemeralSK recipientSK : List Nat) :
    sealedBoxOpen prim
      (sealedBoxSeal prim msg (prim.scalarMultBase recipientSK) ephemeralSK)
      (prim.scalarMultBase recipientSK) recipientSK = some msg := by
  rw [sealedBoxSeal_concat prim msg _ ephemeralSK (hbase ephemeralSK)]
  unfold sealedBoxOpen
  rw [if_neg (by simp [hbase, hboxlen]; omega)]
  rw [List.take_append_of_le_length (le_of_eq (hbase ephemeralSK).symm),
    List.take_of_length_le (le_of_eq (hbase ephemeralSK))]
  rw [show (32 : Nat) = (prim.scalarMultBase ephemeralSK).length from
    (hbase ephemeralSK).symm]
  rw [List.drop_left]
  exact hopen msg _ ephemeralSK recipientSK

/-- Witness for C1 at the concrete primitive and message [1, 2, 3]. -/
theorem c1_witness :
    sealedBoxOpen toyPrim
      (sealedBoxSeal toyPrim [1, 2, 3] (toyPrim.scalarMultBase [7]) [5])
      (toyPrim.scalarMultBase [7]) [7] = some [1, 2, 3] :=
  c1_roundtrip toyPrim (fun s => dhBase_length s)
    (fun m n pk sk => toyBox_length m n pk sk)
    (fun m n a b => toyBoxOpen_toyBox m n a b) [1, 2, 3] [5] [7]

/-- Claim C2: under the current append handler, every successful append is stored with sequence equal to the identity prior maximum plus one, and a batch of requests against an identity with an empty log yields exactly the distinct gapless sequences 1..N for its N successful appends. -/
theorem c2_sequence_assignment (verify : String → String → String → Bool)
    (db₀ : List EventRow) (reqs : List AppendReq) (pkA : String)
    (h : seqsFor pkA db₀ = []) :
    seqsFor pkA (applyRequests verify db₀ reqs) =
      List.range' 1 (countOk verify pkA reqs) ∧
    (seqsFor pkA (applyRequests verify db₀ reqs)).Nodup ∧
    ∀ (db : List EventRow) (rq : AppendReq) (resp : AppendResponse)
      (db2 : List EventRow),
      handleAppend verify db rq = (some resp, db2) →
      resp.seq = maxSeqFor rq.pk db + 1 ∧
      db2 = db ++ [⟨rq.pk, maxSeqFor rq.pk db + 1, rq.ct, rq.now⟩] := by
  have hm : maxSeqFor pkA db₀ = 0 := by
    unfold maxSeqFor
    rw [h]
    rfl
  have h1 := applyRequests_seqsFor verify pkA reqs db₀
  rw [h, hm, List.nil_append] at h1
  refine ⟨h1, ?_, ?_⟩
  · rw [h1]
    exact List.nodup_range' _ _
  · intro db rq resp db2 hap
    rw [handleAppend_eq] at hap
    by_cases hok : reqOk verify rq = true
    · rw [if_pos hok] at hap
      obtain ⟨ha, hb⟩ := Prod.mk.injEq _ _ _ _ ▸ hap
      refine ⟨?_, hb.symm⟩
      have := Option.some.inj ha
      rw [← this]
    · rw [if_neg hok] at hap
      obtain ⟨ha, -⟩ := Prod.mk.injEq _ _ _ _ ▸ hap
      cases ha

/-- Witness for C2: two concrete appends against an empty log. -/
theorem c2_witness :
    seqsFor pkA64 (applyRequests alwaysVerify [] demoReqs) =
      List.range' 1 (countOk alwaysVerify pkA64 demoReqs) ∧
    (seqsFor pkA64 (applyRequests alwaysVerify [] demoReqs)).Nodup ∧
    ∀ (db : List EventRow) (rq : AppendReq) (resp : AppendResponse)
      (db2 : List EventRow),
      handleAppend alwaysVerify db rq = (some resp, db2) →
      resp.seq = maxSeqFor rq.pk db + 1 ∧
      db2 = db ++ [⟨rq.pk, maxSeqFor rq.pk db + 1, rq.ct, rq.now⟩] :=
  c2_sequence_assignment alwaysVerify [] demoReqs pkA64 rfl

/-- Counterexample to claim C3 as stated: a timer_stop whose recorded duration_minutes field (500) disagrees with (stop.ts minus start.ts)/60 (= 1) produces a session with duration 500, not roundUpToMinute of the timestamp difference. -/
theorem c3_counterexample :
    reconstructSessions
      [.timerStart ⟨"s1", 0⟩, .timerStop "x" 60 "s1" 500] =
      [⟨"s1", 0, 60, 500, .timer⟩] ∧
    roundUpToMinute ((60 - 0) / 60) = 1 ∧ (500 : ℚ) ≠ 1 := by
  refine ⟨?_, ?_, by norm_num⟩
  · have h : roundUpToMinute 500 = 500 := by norm_num [roundUpToMinute]
    simp [reconstructSessions, processEvent, mapGet, mapSet, mapDelete,
      sortByStartDesc, insertDescByStart, h]
  · norm_num [roundUpToMinute]

/-- Claim C3 (amended): a timer_stop whose referenced start is pending materializes a session keyed by the start id with startedAt = start.ts, endedAt = stop.ts and durationMinutes = roundUpToMinute of the stop event recorded duration_minutes field (which equals (stop.ts minus start.ts)/60 only when the stop was created by createTimerStop at stop time), dropping the pending entry; a stop without a pending start changes nothing. -/
theorem c3_timer_stop_step (st : RecState) (i sid : String) (ts dur : ℚ)
    (start : TimerStartEvent) :
    (mapGet st.pendingStarts sid = some start →
      processEvent st (.timerStop i ts sid dur) =
        { st with
          sessions := mapSet st.sessions start.id
            ⟨start.id, start.ts, ts, roundUpToMinute dur, .timer⟩,
          pendingStarts := mapDelete st.pendingStarts start.id }) ∧
    (mapGet st.pendingStarts sid = none →
      processEvent st (.timerStop i ts sid dur) = st) := by
  constructor
  · intro h
    simp [processEvent, h]
  · intro h
    simp [processEvent, h]

/-- Witness for the amended C3 at the spec example (start at 1000, stop at 1900, recorded duration 15) and at an unmatched stop. -/
theorem c3_timer_stop_step_witness :
    processEvent ⟨[], [], [("s1", ⟨"s1", 1000⟩)]⟩
      (.timerStop "x" 1900 "s1" 15) =
      { sessions := [("s1", ⟨"s1", 1000, 1900, roundUpToMinute 15, .timer⟩)],
        deletedIds := [],
        pendingStarts := [] } ∧
    processEvent ⟨[], [], []⟩ (.timerStop "x" 1900 "s2" 15) =
      (⟨[], [], []⟩ : RecState) :=
  ⟨by
    have h := (c3_timer_stop_step ⟨[], [], [("s1", ⟨"s1", 1000⟩)]⟩
      "x" "s1" 1900 15 ⟨"s1", 1000⟩).1 (by decide)
    rw [h]
    simp [mapSet, mapDelete],
   (c3_timer_stop_step ⟨[], [], []⟩ "x" "s2" 1900 15 ⟨"s2", 0⟩).2
     (by decide)⟩

/-- Claim C4: a delete correction removes the referenced session (the manual entry plus delete reconstructs to the empty list); a replace correction on an existing session overwrites only start/end/duration with the replacement duration re-rounded (a one-hour manual entry replaced by a two-hour span yields duration 120); a replace for a non-existent session is a no-op. -/
theorem c4_correction_semantics :
    reconstructSessions
      [.manualEntry "e1" 10 0 3600 60,
       .correction "c1" 20 "e1" .delete none] = [] ∧
    reconstructSessions
      [.manualEntry "e1" 10 0 3600 60,
       .correction "c1" 20 "e1" .replace (some ⟨0, 7200, 120⟩)] =
      [⟨"e1", 0, 7200, 120, .manual⟩] ∧
    (∀ (st : RecState) (i cid : String) (ts : ℚ) (r : Replacement)
        (existing : Session),
      mapGet st.sessions cid = some existing →
      processEvent st (.correction i ts cid .replace (some r)) =
        { st with
          sessions := mapSet st.sessions cid
            { existing with
              startedAt := r.started_at,
              endedAt := r.ended_at,
              durationMinutes := roundUpToMinute r.duration_minutes } }) ∧
    (∀ (st : RecState) (i cid : String) (ts : ℚ) (r : Replacement),
      mapGet st.sessions cid = none →
      processEvent st (.correction i ts cid .replace (some r)) = st) := by
  refine ⟨?_, ?_, ?_, ?_⟩
  · simp [reconstructSessions, processEvent, mapGet, mapSet, mapDelete,
      setAdd, sortByStartDesc]
  · have h60 : roundUpToMinute 60 = 60 := by norm_num [roundUpToMinute]
    have h120 : roundUpToMinute 120 = 120 := by norm_num [roundUpToMinute]
    simp [reconstructSessions, processEvent, mapGet, mapSet, mapDelete,
      setAdd, sortByStartDesc, insertDescByStart, h60, h120]
  · intro st i cid ts r existing h
    simp [processEvent, h]
  · intro st i cid ts r h
    simp [processEvent, h]

/-- Witness for C4 replace-existing and replace-missing at concrete states. -/
theorem c4_witness :
    processEvent ⟨[("e1", ⟨"e1", 0, 3600, 60, .manual⟩)], [], []⟩
      (.correction "c1" 20 "e1" .replace (some ⟨0, 7200, 120⟩)) =
      { sessions := [("e1", ⟨"e1", 0, 7200, roundUpToMinute 120, .manual⟩)],
        deletedIds := [],
        pendingStarts := [] } ∧
    processEvent (⟨[], [], []⟩ : RecState)
      (.correction "c1" 20 "e1" .replace (some ⟨0, 7200, 120⟩)) =
      (⟨[], [], []⟩ : RecState) :=
  ⟨by
    have h := (c4_correction_semantics.2.2.1)
      ⟨[("e1", ⟨"e1", 0, 3600, 60, .manual⟩)], [], []⟩ "c1" "e1" 20
      ⟨0, 7200, 120⟩ ⟨"e1", 0, 3600, 60, .manual⟩ (by decide)
    rw [h]
    simp [mapSet],
   (c4_correction_semantics.2.2.2) ⟨[], [], []⟩ "c1" "e1" 20
     ⟨0, 7200, 120⟩ (by decide)⟩

/-- Claim C5: EventCache.appendEvents never stores an entry at or below the current high-water mark; for ascending input it is idempotent under a retried identical call, preserves strict sortedness (hence no duplicate sequences), and leaves lastSeq equal to the maximum of the old mark and the appended sequences (the highest appended sequence). -/
theorem c5_appendEvents_idempotent (st : CacheState)
    (evs : List ServerEvent) (now₁ now₂ : Nat)
    (hasc : (evs.map (fun e => e.seq)).Pairwise (· < ·))
    (hwf : ∀ e ∈ st.items, e.seq ≤ st.lastSeq)
    (hnd : (st.items.map (fun e => e.seq)).Pairwise (· < ·)) :
    appendEvents now₂ (appendEvents now₁ st evs) evs =
      appendEvents now₁ st evs ∧
    ((appendEvents now₁ st evs).items.map (fun e => e.seq)).Pairwise
      (· < ·) ∧
    (appendEvents now₁ st evs).lastSeq =
      (evs.map (fun e => e.seq)).foldl max st.lastSeq ∧
    ∀ e ∈ (appendEvents now₁ st evs).items,
      e ∈ st.items ∨ st.lastSeq < e.seq := by
  by_cases h0 : (evs.length == 0) = true
  · have hst : appendEvents now₁ st evs = st :=
      appendEvents_stable now₁ st evs (Or.inl h0)
    rw [hst]
    have hempty : evs = [] := List.length_eq_zero.mp (by simpa using h0)
    subst hempty
    exact ⟨appendEvents_stable now₂ st [] (Or.inl rfl), hnd, by simp,
      fun e he => Or.inl he⟩
  · have h0' : (evs.length == 0) = false := Bool.eq_false_iff.mpr h0
    by_cases h1 : ((evs.filter (fun e => st.lastSeq < e.seq)).length == 0)
      = true
    · have hst : appendEvents now₁ st evs = st :=
        appendEvents_stable now₁ st evs (Or.inr h1)
      rw [hst]
      have hfe : evs.filter (fun e => st.lastSeq < e.seq) = [] :=
        List.length_eq_zero.mp (by simpa using h1)
      have hallle : ∀ e ∈ evs, e.seq ≤ st.lastSeq := by
        intro e he
        by_contra hlt
        push_neg at hlt
        have hmem : e ∈ evs.filter (fun e => st.lastSeq < e.seq) :=
          List.mem_filter.mpr ⟨he, by simpa using hlt⟩
        rw [hfe] at hmem
        cases hmem
      refine ⟨appendEvents_stable now₂ st evs (Or.inr h1), hnd, ?_,
        fun e he => Or.inl he⟩
      symm
      apply foldl_max_of_all_le
      intro x hx
      obtain ⟨e, he, rfl⟩ := List.mem_map.mp hx
      exact hallle e he
    · have h1' : ((evs.filter (fun e => st.lastSeq < e.seq)).length == 0)
        = false := Bool.eq_false_iff.mpr h1
      have hne : evs.filter (fun e => st.lastSeq < e.seq) ≠ [] := by
        intro hc
        rw [hc] at h1'
        simp at h1'
      obtain ⟨g, hg⟩ : ∃ g,
          (evs.filter (fun e => st.lastSeq < e.seq)).getLast? = some g := by
        cases hgl : (evs.filter (fun e => st.lastSeq < e.seq)).getLast? with
        | none => exact absurd (List.getLast?_eq_none_iff.mp hgl) hne
        | some g => exact ⟨g, rfl⟩
      have happ := appendEvents_of_fresh_ne now₁ st evs h0' h1'
      have hglast :
          ((((evs.filter (fun e => st.lastSeq < e.seq)).getLast?).map
            (fun e => e.seq)).getD 0) = g.seq := by
        rw [hg]
        rfl
      have hgF : g ∈ evs.filter (fun e => st.lastSeq < e.seq) :=
        getLast?_mem _ g hg
      have hgevs : g ∈ evs := List.mem_of_mem_filter hgF
      have hglt : st.lastSeq < g.seq := by
        simpa using List.of_mem_filter hgF
      have hFpair : (evs.filter (fun e => st.lastSeq < e.seq)).Pairwise
          (fun a b => a.seq < b.seq) :=
        List.Pairwise.sublist (List.filter_sublist evs)
          (List.pairwise_map.mp hasc)
      have hle_g : ∀ e ∈ evs, e.seq ≤ g.seq := by
        intro e he
        by_cases hel : st.lastSeq < e.seq
        · exact seq_le_getLast_of_sorted _ hFpair e
            (List.mem_filter.mpr ⟨he, by simpa using hel⟩) g hg
        · push_neg at hel
          exact le_trans hel (le_of_lt hglt)
      have hM : g.seq = (evs.map (fun e => e.seq)).foldl max st.lastSeq := by
        apply le_antisymm
        · exact le_foldl_max_of_mem _ _ _ (List.mem_map_of_mem _ hgevs)
        · apply foldl_max_le
          · exact le_of_lt hglt
          · intro x hx
            obtain ⟨e, he, rfl⟩ := List.mem_map.mp hx
            exact hle_g e he
      refine ⟨?_, ?_, ?_, ?_⟩
      · rw [happ]
        apply appendEvents_stable
        right
        show ((evs.filter (fun e =>
          ((((evs.filter (fun e => st.lastSeq < e.seq)).getLast?).map
            (fun e => e.seq)).getD 0) < e.seq)).length == 0) = true
        rw [hglast]
        rw [List.filter_eq_nil_iff.mpr
          (fun e he => by simpa using not_lt.mpr (hle_g e he))]
        rfl
      · rw [happ]
        show ((st.items ++
          evs.filter (fun e => st.lastSeq < e.seq)).map
            (fun e => e.seq)).Pairwise (· < ·)
        rw [List.map_append, List.pairwise_append]
        refine ⟨hnd, List.pairwise_map.mpr hFpair, ?_⟩
        intro a ha b hb
        obtain ⟨ea, hea, rfl⟩ := List.mem_map.mp ha
        obtain ⟨eb, heb, rfl⟩ := List.mem_map.mp hb
        have hb1 := hwf ea hea
        have hb2 : st.lastSeq < eb.seq := by
          simpa using List.of_mem_filter heb
        omega
      · rw [happ]
        show ((((evs.filter (fun e => st.lastSeq < e.seq)).getLast?).map
          (fun e => e.seq)).getD 0) = _
        rw [hglast, hM]
      · rw [happ]
        intro e he
        rcases List.mem_append.mp he with hm1 | hm2
        · exact Or.inl hm1
        · right
          simpa using List.of_mem_filter hm2

/-- Witness for C5 at a concrete empty cache and two events. -/
theorem c5_witness :
    (([⟨1, "a", 5⟩, ⟨2, "b", 6⟩] : List ServerEvent).map
      (fun e => e.seq)).Pairwise (· < ·) ∧
    appendEvents 8 (appendEvents 7 ⟨[], 0, 0⟩ [⟨1, "a", 5⟩, ⟨2, "b", 6⟩])
      [⟨1, "a", 5⟩, ⟨2, "b", 6⟩] =
      appendEvents 7 ⟨[], 0, 0⟩ [⟨1, "a", 5⟩, ⟨2, "b", 6⟩] ∧
    ((appendEvents 7 ⟨[], 0, 0⟩
      [⟨1, "a", 5⟩, ⟨2, "b", 6⟩]).items.map (fun e => e.seq)).Pairwise
        (· < ·) ∧
    (appendEvents 7 (⟨[], 0, 0⟩ : CacheState)
      [⟨1, "a", 5⟩, ⟨2, "b", 6⟩]).lastSeq =
      (([⟨1, "a", 5⟩, ⟨2, "b", 6⟩] : List ServerEvent).map
        (fun e => e.seq)).foldl max (CacheState.mk [] 0 0).lastSeq ∧
    ∀ e ∈ (appendEvents 7 (⟨[], 0, 0⟩ : CacheState)
      [⟨1, "a", 5⟩, ⟨2, "b", 6⟩]).items,
      e ∈ (CacheState.mk [] 0 0).items ∨ (CacheState.mk [] 0 0).lastSeq < e.seq :=
  ⟨by decide,
   c5_appendEvents_idempotent ⟨[], 0, 0⟩ [⟨1, "a", 5⟩, ⟨2, "b", 6⟩] 7 8
     (by decide) (by decide) (by decide)⟩

/-- Claim C6: encryption-key derivation is a deterministic pure function of the 64-byte signing secret key: two runs of identityFromSecretKey over environments sharing the same primitives but arbitrary randomness streams yield byte-identical encryption keypairs, and ed25519SecretKeyToX25519 likewise. -/
theorem c6_derivation_deterministic (a b : CryptoEnv) (sk : List Nat)
    (h : a.prim = b.prim) :
    (identityFromSecretKey a sk).encryptionKeyPair =
      (identityFromSecretKey b sk).encryptionKeyPair ∧
    ed25519SecretKeyToX25519 a.prim sk =
      ed25519SecretKeyToX25519 b.prim sk := by
  constructor
  · simp [identityFromSecretKey, h]
  · rw [h]

/-- Witness for C6: the same secret key under two environments with different randomness. -/
theorem c6_witness :
    (identityFromSecretKey toyEnvA (List.range 64)).encryptionKeyPair =
      (identityFromSecretKey toyEnvB (List.range 64)).encryptionKeyPair ∧
    ed25519SecretKeyToX25519 toyEnvA.prim (List.range 64) =
      ed25519SecretKeyToX25519 toyEnvB.prim (List.range 64) :=
  c6_derivation_deterministic toyEnvA toyEnvB (List.range 64) rfl

/-- Claim C7: sealedBoxOpen signals failure by value: every input shorter than 48 bytes yields none without attempting decryption, and whenever the underlying authenticated box rejects (wrong keypair or tampered ciphertext) sealedBoxOpen yields none rather than an exception. -/
theorem c7_fail_by_value (prim : NaclPrim) (sealed pk sk : List Nat) :
    (sealed.length < 48 → sealedBoxOpen prim sealed pk sk = none) ∧
    (prim.boxOpen (sealed.drop 32) (sealedBoxNonce prim (sealed.take 32) pk)
        (sealed.take 32) sk = none →
      sealedBoxOpen prim sealed pk sk = none) := by
  constructor
  · intro h
    simp [sealedBoxOpen, h]
  · intro h
    by_cases hlen : sealed.length < 48
    · simp [sealedBoxOpen, hlen]
    · simp [sealedBoxOpen, hlen, h]

/-- Witness for C7: a truncated input, a tampered byte in the ciphertext region and a mismatched keypair all yield none. -/
theorem c7_witness :
    (([1, 2, 3] : List Nat).length < 48 ∧
      sealedBoxOpen toyPrim [1, 2, 3] (dhBase [7]) [7] = none) ∧
    sealedBoxOpen toyPrim
      (writeAt (sealedBoxSeal toyPrim [4, 5, 6] (dhBase [7]) [5]) 33 [0])
      (dhBase [7]) [7] = none ∧
    sealedBoxOpen toyPrim
      (sealedBoxSeal toyPrim [4, 5, 6] (dhBase [7]) [5])
      (dhBase [9]) [9] = none :=
  ⟨⟨by decide, (c7_fail_by_value toyPrim [1, 2, 3] (dhBase [7]) [7]).1
      (by decide)⟩,
    (c7_fail_by_value toyPrim
      (writeAt (sealedBoxSeal toyPrim [4, 5, 6] (dhBase [7]) [5]) 33 [0])
      (dhBase [7]) [7]).2 (by decide),
    (c7_fail_by_value toyPrim
      (sealedBoxSeal toyPrim [4, 5, 6] (dhBase [7]) [5])
      (dhBase [9]) [9]).2 (by decide)⟩

/-- Claim C8: when the store reported latest sequence is not greater than the cached lastSeq, SyncEngine.pull performs no event fetch (empty fetch log) and returns the unchanged cache state together with exactly the decryption of the already-cached events. -/
theorem c8_pull_noop (prim : NaclPrim) (dec64 : String → List Nat)
    (decEv : List Nat → Option OutsideEvent) (identity : Identity)
    (store : StoreView) (st : CacheState) (now fuel : Nat)
    (h : store.latestSeq ≤ st.lastSeq) :
    pull prim dec64 decEv identity store st now fuel =
      some (st, decryptCachedEvents prim dec64 decEv identity st, []) := by
  simp [pull, h]

/-- Witness for C8 at a concrete empty store and cache. -/
theorem c8_witness :
    noStore.latestSeq ≤ (CacheState.mk [] 0 0).lastSeq ∧
    pull toyPrim (fun _ => []) (fun _ => none) emptyIdentity noStore
      ⟨[], 0, 0⟩ 9 3 =
      some (⟨[], 0, 0⟩,
        decryptCachedEvents toyPrim (fun _ => []) (fun _ => none)
          emptyIdentity ⟨[], 0, 0⟩, []) :=
  ⟨by decide,
   c8_pull_noop toyPrim (fun _ => []) (fun _ => none) emptyIdentity noStore
     ⟨[], 0, 0⟩ 9 3 (by decide)⟩

/-- Claim C9: findActiveTimerStart returns none exactly when no timer_start is both unmatched by any timer_stop and not delete-corrected, and otherwise returns such a candidate from the list whose timestamp is maximal among all candidates. -/
theorem c9_findActiveTimerStart (evs : List OutsideEvent) :
    (findActiveTimerStart evs = none →
      ∀ e ∈ evs, isActiveCandidate evs e = false) ∧
    ((∀ e ∈ evs, isActiveCandidate evs e = false) →
      findActiveTimerStart evs = none) ∧
    ∀ r, findActiveTimerStart evs = some r →
      (OutsideEvent.timerStart r ∈ evs ∧
        isActiveCandidate evs (.timerStart r) = true) ∧
      ∀ s, OutsideEvent.timerStart s ∈ evs →
        isActiveCandidate evs (.timerStart s) = true → s.ts ≤ r.ts := by
  refine ⟨?_, ?_, ?_⟩
  · intro h e he
    rw [isActiveCandidate_eq]
    exact (activeScan_fold_none _ _ evs none h).2 e he
  · intro h
    cases hr : findActiveTimerStart evs with
    | none => rfl
    | some r =>
        obtain ⟨hsrc, -, -⟩ := activeScan_fold_some
          (matchedStartIds evs) (deleteCorrectedIds evs) evs none r hr
        rcases hsrc with ⟨hmem, hcand⟩ | hnone
        · have := h _ hmem
          rw [isActiveCandidate_eq] at this
          rw [this] at hcand
          exact Bool.noConfusion hcand
        · cases hnone
  · intro r hr
    obtain ⟨hsrc, hmax, -⟩ := activeScan_fold_some
      (matchedStartIds evs) (deleteCorrectedIds evs) evs none r hr
    rcases hsrc with ⟨hmem, hcand⟩ | hnone
    · refine ⟨⟨hmem, by rw [isActiveCandidate_eq]; exact hcand⟩, ?_⟩
      intro s hs hcs
      rw [isActiveCandidate_eq] at hcs
      exact hmax s hs hcs
    · cases hnone

/-- Witness for C9 at the spec example: an unmatched recent start next to an older matched one. -/
theorem c9_witness :
    findActiveTimerStart
      [.timerStart ⟨"a", 100⟩, .timerStop "x" 200 "a" 2,
       .timerStart ⟨"b", 300⟩] = some ⟨"b", 300⟩ ∧
    (OutsideEvent.timerStart ⟨"b", 300⟩ ∈
      ([.timerStart ⟨"a", 100⟩, .timerStop "x" 200 "a" 2,
        .timerStart ⟨"b", 300⟩] : List OutsideEvent) ∧
      isActiveCandidate
        [.timerStart ⟨"a", 100⟩, .timerStop "x" 200 "a" 2,
         .timerStart ⟨"b", 300⟩] (.timerStart ⟨"b", 300⟩) = true) ∧
    ∀ s, OutsideEvent.timerStart s ∈
        ([.timerStart ⟨"a", 100⟩, .timerStop "x" 200 "a" 2,
          .timerStart ⟨"b", 300⟩] : List OutsideEvent) →
      isActiveCandidate
        [.timerStart ⟨"a", 100⟩, .timerStop "x" 200 "a" 2,
         .timerStart ⟨"b", 300⟩] (.timerStart s) = true →
      s.ts ≤ (⟨"b", 300⟩ : TimerStartEvent).ts :=
  ⟨by decide,
   (c9_findActiveTimerStart
     [.timerStart ⟨"a", 100⟩, .timerStop "x" 200 "a" 2,
      .timerStart ⟨"b", 300⟩]).2.2 ⟨"b", 300⟩ (by decide)⟩

/-- Claim C10: a delete correction excludes its referenced id from the reconstruction output regardless of its position in the event list, because the deleted-id set is applied as a filter after the entire fold. -/
theorem c10_delete_position_independent (evs : List OutsideEvent)
    (i cid : String) (ts : ℚ) (repl : Option Replacement)
    (h : OutsideEvent.correction i ts cid .delete repl ∈ evs) :
    ∀ s ∈ reconstructSessions evs, s.id ≠ cid := by
  intro s hs
  have hdel : cid ∈ (evs.foldl processEvent ⟨[], [], []⟩).deletedIds :=
    foldl_deleted_of_mem evs i cid ts repl h ⟨[], [], []⟩
  unfold reconstructSessions at hs
  have hs' := mem_of_mem_sortByStartDesc s _ hs
  have hfilter := List.of_mem_filter hs'
  intro heq
  rw [heq] at hfilter
  simp at hfilter
  exact hfilter hdel

/-- Witness for C10: a delete correction placed before the manual entry it deletes. -/
theorem c10_witness :
    OutsideEvent.correction "c1" 5 "e1" .delete none ∈
      [OutsideEvent.correction "c1" 5 "e1" .delete none,
       OutsideEvent.manualEntry "e1" 10 0 3600 60] ∧
    ∀ s ∈ reconstructSessions
      [OutsideEvent.correction "c1" 5 "e1" .delete none,
       OutsideEvent.manualEntry "e1" 10 0 3600 60], s.id ≠ "e1" :=
  ⟨List.mem_cons_self _ _,
   c10_delete_position_independent _ "c1" "e1" 5 none
     (List.mem_cons_self _ _)⟩

/-- Concrete evaluation: the two demo appends receive sequences [1, 2]. -/
theorem demo_seqs_eval :
    seqsFor pkA64 (applyRequests alwaysVerify [] demoReqs) = [1, 2] := by
  decide

/-- Concrete evaluation: both demo requests pass validation. -/
theorem demo_countOk_eval : countOk alwaysVerify pkA64 demoReqs = 2 := by
  decide
